import Mathlib

/-!
Hydroponics node firmware: sensor calibration and Wi-Fi supervision.

A shallow embedding of `src/esp32/sensors.h` and `src/esp32/wifi_manager.h`.

* `float` is IEEE-754 binary32, modelled by its 32-bit encoding, with
  round-to-nearest-even multiplication, division and integer conversion.
* `unsigned long` and `uint32_t` are naturals reduced modulo `2^32`.
* The hardware is an explicit environment: the value the temperature driver
  returns, the ADC sample on each pin, and the uptime clock in milliseconds.
-/

namespace F32

/-- A binary32 value, given by its encoding: bit 31 is the sign, bits 30..23
the biased exponent, bits 22..0 the fraction. -/
structure Float32 where
  bits : Nat
deriving DecidableEq, Repr

/-- Sign bit. -/
def sign (x : Float32) : Bool := x.bits / 2 ^ 31 % 2 == 1

/-- Encoding with the sign bit cleared. -/
def magBits (x : Float32) : Nat := x.bits % 2 ^ 31

/-- Biased exponent field. -/
def expField (x : Float32) : Nat := x.bits / 2 ^ 23 % 256

/-- Fraction field. -/
def fracField (x : Float32) : Nat := x.bits % 2 ^ 23

def isNaN (x : Float32) : Bool := decide (2139095040 < magBits x)

def isInf (x : Float32) : Bool := magBits x == 2139095040

def isZero (x : Float32) : Bool := magBits x == 0

/-- Integer significand: the fraction for a subnormal, the fraction with the
hidden bit for a normal number. -/
def significand (x : Float32) : Nat :=
  if expField x = 0 then fracField x else 2 ^ 23 + fracField x

/-- Magnitude of a finite value in units of `2^-149`, the smallest positive
binary32 number: `|x| = toScaled x / 2^149`. -/
def toScaled (x : Float32) : Nat := significand x * 2 ^ (expField x - 1)

/-- Rational value of a finite encoding. -/
def toRat (x : Float32) : ℚ :=
  (if sign x then -1 else 1) * ((toScaled x : ℚ) / 2 ^ 149)

/-- Nearest integer to `num / den`, ties to even. -/
def roundNE (num den : Nat) : Nat :=
  let q := num / den
  let r := num % den
  if 2 * r < den then q
  else if den < 2 * r then q + 1
  else if q % 2 = 0 then q else q + 1

/-- Binary logarithm with an explicit recursion budget. -/
def ilog2Aux : Nat → Nat → Nat
  | 0, _ => 0
  | fuel + 1, n => if n < 2 then 0 else ilog2Aux fuel (n / 2) + 1

/-- Floor of the binary logarithm: `ilog2 n = ⌊log2 n⌋` for `0 < n`, and
`ilog2 0 = 0`. -/
def ilog2 (n : Nat) : Nat := ilog2Aux n n

/-- Encoding of the magnitude of `n / d` rounded to the nearest binary32 value,
ties to even. With `e = ilog2 (n * 2^149 / d) - 23` (truncated at `0` for the
subnormal range) the significand is `n * 2^149 / (d * 2^e)` rounded, and the
encoding `e * 2^23 + significand` also covers the carry into the next binade.
Magnitudes beyond the largest finite value give infinity. -/
def roundMag (n d : Nat) : Nat :=
  let e := ilog2 (n * 2 ^ 149 / d) - 23
  let enc := e * 2 ^ 23 + roundNE (n * 2 ^ 149) (d * 2 ^ e)
  if 2139095040 ≤ enc then 2139095040 else enc

/-- Encoding from sign and magnitude encoding. -/
def pack (s : Bool) (mag : Nat) : Float32 := ⟨(if s then 2 ^ 31 else 0) + mag⟩

/-- The quiet NaN produced by invalid operations. -/
def qNaN : Float32 := ⟨2143289344⟩

/-- Conversion of a non-negative integer to `float`. -/
def ofNat (n : Nat) : Float32 := pack false (roundMag n 1)

/-- Binary32 multiplication. -/
def mul (a b : Float32) : Float32 :=
  if isNaN a || isNaN b then qNaN
  else if (isInf a && isZero b) || (isZero a && isInf b) then qNaN
  else if isInf a || isInf b then pack (sign a != sign b) 2139095040
  else pack (sign a != sign b) (roundMag (toScaled a * toScaled b) (2 ^ 298))

/-- Binary32 division. -/
def div (a b : Float32) : Float32 :=
  if isNaN a || isNaN b then qNaN
  else if (isInf a && isInf b) || (isZero a && isZero b) then qNaN
  else if isInf a || isZero b then pack (sign a != sign b) 2139095040
  else if isInf b then pack (sign a != sign b) 0
  else pack (sign a != sign b) (roundMag (toScaled a) (toScaled b))

end F32

namespace Sensors

open F32

/-- ADC pin of the pH probe. -/
def PIN_PH : Nat := 34

/-- ADC pin of the conductivity probe. -/
def PIN_EC : Nat := 35

/-- ADC pin of the water-level probe. -/
def PIN_WATER_LEVEL : Nat := 32

/-- Calibration constant `14.0f / 4095.0f`. -/
def PH_SLOPE : Float32 := div (ofNat 14) (ofNat 4095)

/-- Calibration constant `5.0f / 4095.0f`. -/
def EC_FACTOR : Float32 := div (ofNat 5) (ofNat 4095)

/-- The record `Sensors::Data`; `ts` is a `uint32_t`. -/
structure Data where
  temperature : Float32
  ph : Float32
  ec : Float32
  waterLevel : Float32
  ts : Nat
deriving DecidableEq, Repr

/-- What the hardware answers during one acquisition: the value
`tempSensor.getTempCByIndex(0)` returns, the sample `analogRead` returns on each
pin, and the uptime in milliseconds at the moment `millis()` is called. -/
structure Env where
  tempC : Float32
  adc : Nat → Nat
  clock : Nat

/-- The Arduino `millis()`: the uptime truncated to an `unsigned long`. -/
def millis (clock : Nat) : Nat := clock % 2 ^ 32

def readTemperatureC (env : Env) : Float32 := env.tempC

def readPH (env : Env) : Float32 := mul (ofNat (env.adc PIN_PH)) PH_SLOPE

def readEC (env : Env) : Float32 := mul (ofNat (env.adc PIN_EC)) EC_FACTOR

def readWaterLevel (env : Env) : Float32 :=
  mul (ofNat (env.adc PIN_WATER_LEVEL)) (div (ofNat 100) (ofNat 4095))

def readAll (env : Env) : Data :=
  { temperature := readTemperatureC env
    ph := readPH env
    ec := readEC env
    waterLevel := readWaterLevel env
    ts := millis env.clock }

end Sensors

namespace WifiManager

/-- The Arduino `millis()`: the uptime truncated to an `unsigned long`. -/
def millis (clock : Nat) : Nat := clock % 2 ^ 32

/-- Subtraction of two `unsigned long` values. -/
def subU32 (a b : Nat) : Nat := (a + 2 ^ 32 - b) % 2 ^ 32

/-- The test `millis() - start >= timeoutMs`. -/
def timedOut (now start timeoutMs : Nat) : Bool := decide (timeoutMs ≤ subU32 now start)

/-- Outcome of a call of `ensureConnected`: the value returned, the uptime at
the return, and how many times `wifiMulti.run()` and `delay(250)` were called. -/
structure Outcome where
  ret : Bool
  clock : Nat
  polls : Nat
  delays : Nat
deriving DecidableEq, Repr

/-- The `while` loop of `ensureConnected`. `status i` tells whether the call
number `i` of `wifiMulti.run()` returns `WL_CONNECTED`; the uptime advances
only through `delay(250)`. `fuel` bounds the number of iterations. -/
def ensureConnectedLoop (status : Nat → Bool) (start timeoutMs : Nat) :
    Nat → Nat → Nat → Nat → Option Outcome
  | 0, _, _, _ => none
  | fuel + 1, clock, polls, delays =>
    if status polls then some ⟨true, clock, polls + 1, delays⟩
    else if timedOut (millis clock) start timeoutMs then
      some ⟨false, clock, polls + 1, delays⟩
    else ensureConnectedLoop status start timeoutMs fuel (clock + 250) (polls + 1) (delays + 1)

/-- The function `ensureConnected(timeoutMs)`, entered at uptime `clock`. -/
def ensureConnected (fuel : Nat) (status : Nat → Bool) (clock timeoutMs : Nat) :
    Option Outcome :=
  ensureConnectedLoop status (millis clock) timeoutMs fuel clock 0 0

/-- No poll before `k` ends the loop: each reports not connected and is taken
at a wrapped elapsed time below the timeout. -/
def Pending (status : Nat → Bool) (T k : Nat) : Prop :=
  ∀ j, j < k → status j = false ∧ (250 * j) % 2 ^ 32 < T

end WifiManager

/-! Binary32 rounding. -/

namespace F32

theorem ilog2Aux_spec : ∀ (fuel n : Nat), 0 < n → n ≤ fuel →
    2 ^ ilog2Aux fuel n ≤ n ∧ n < 2 ^ (ilog2Aux fuel n + 1) := by
  intro fuel
  induction fuel with
  | zero => intro n h0 h1; omega
  | succ fuel ih =>
    intro n h0 h1
    rw [ilog2Aux]
    by_cases h2 : n < 2
    · rw [if_pos h2]
      have : n = 1 := by omega
      subst this
      decide
    · rw [if_neg h2]
      have hrec := ih (n / 2) (by omega) (by omega)
      rw [pow_succ, pow_succ]
      omega

theorem ilog2_spec (n : Nat) (h : 0 < n) : 2 ^ ilog2 n ≤ n ∧ n < 2 ^ (ilog2 n + 1) :=
  ilog2Aux_spec n n h (Nat.le_refl n)

theorem ilog2_lt_of_lt_pow (n k : Nat) (h : n < 2 ^ k) : ilog2 n < k ∨ n = 0 := by
  rcases Nat.eq_zero_or_pos n with h0 | h0
  · exact Or.inr h0
  · left
    have h1 := (ilog2_spec n h0).1
    have h2 : 2 ^ ilog2 n < 2 ^ k := lt_of_le_of_lt h1 h
    exact (Nat.pow_lt_pow_iff_right (by decide)).1 h2

theorem ilog2_zero : ilog2 0 = 0 := rfl

theorem le_ilog2_of_pow_le (n k : Nat) (h : 2 ^ k ≤ n) : k ≤ ilog2 n := by
  have h0 : 0 < n := lt_of_lt_of_le (Nat.two_pow_pos k) h
  have h1 := (ilog2_spec n h0).2
  have h2 : 2 ^ k < 2 ^ (ilog2 n + 1) := lt_of_le_of_lt h h1
  have := (Nat.pow_lt_pow_iff_right (by decide)).1 h2
  omega

theorem roundNE_bounds (N D : Nat) (hD : 0 < D) :
    N / D ≤ roundNE N D ∧ roundNE N D ≤ N / D + 1
      ∧ 2 * (roundNE N D * D) ≤ 2 * N + D ∧ 2 * N ≤ 2 * (roundNE N D * D) + D := by
  have hdm := Nat.div_add_mod N D
  have hlt := Nat.mod_lt N hD
  have hmul : (N / D + 1) * D = N / D * D + D := by ring
  have hc : D * (N / D) = N / D * D := Nat.mul_comm _ _
  unfold roundNE
  simp only
  split_ifs with h1 h2 h3
  · refine ⟨le_refl _, Nat.le_succ _, ?_, ?_⟩ <;> omega
  · refine ⟨Nat.le_succ _, le_refl _, ?_, ?_⟩ <;> rw [hmul] <;> omega
  · refine ⟨le_refl _, Nat.le_succ _, ?_, ?_⟩ <;> omega
  · refine ⟨Nat.le_succ _, le_refl _, ?_, ?_⟩ <;> rw [hmul] <;> omega

theorem roundNE_le_of_le_mul (N D k : Nat) (hD : 0 < D) (h : N ≤ k * D) : roundNE N D ≤ k := by
  have hdm := Nat.div_add_mod N D
  have hlt := Nat.mod_lt N hD
  unfold roundNE
  simp only
  have hq : N / D ≤ k := by
    calc N / D ≤ k * D / D := Nat.div_le_div_right h
      _ = k := Nat.mul_div_cancel k hD
  by_cases hr : N % D = 0
  · have h1 : 2 * (N % D) < D := by omega
    rw [if_pos h1]
    exact hq
  · have hqlt : N / D < k := by
      by_contra hge
      have hkq : k = N / D := by omega
      rw [hkq] at h
      have : D * (N / D) = N / D * D := Nat.mul_comm _ _
      omega
    split_ifs <;> omega

theorem roundNE_mul_left (k D : Nat) (hD : 0 < D) : roundNE (k * D) D = k := by
  unfold roundNE
  simp only [Nat.mul_div_cancel k hD, Nat.mul_mod_left]
  rw [if_pos (by omega)]

theorem roundNE_range (N d : Nat) (hd : 0 < d) :
    (ilog2 (N / d) - 23 = 0 ∧ roundNE N (d * 2 ^ (ilog2 (N / d) - 23)) ≤ 2 ^ 23)
      ∨ (2 ^ 23 ≤ roundNE N (d * 2 ^ (ilog2 (N / d) - 23))
          ∧ roundNE N (d * 2 ^ (ilog2 (N / d) - 23)) ≤ 2 ^ 24) := by
  have hD : 0 < d * 2 ^ (ilog2 (N / d) - 23) := Nat.mul_pos hd (Nat.two_pow_pos _)
  obtain ⟨hlo, hhi, -, -⟩ := roundNE_bounds N (d * 2 ^ (ilog2 (N / d) - 23)) hD
  rw [← Nat.div_div_eq_div_mul] at hlo hhi
  rcases Nat.eq_zero_or_pos (N / d) with h0 | h0
  · left
    rw [h0] at hlo hhi ⊢
    simp only [ilog2_zero, Nat.zero_sub, pow_zero, Nat.zero_div, Nat.mul_one] at hhi ⊢
    exact ⟨trivial, by omega⟩
  · obtain ⟨h1, h2⟩ := ilog2_spec (N / d) h0
    by_cases hL : 23 ≤ ilog2 (N / d)
    · right
      have hsplit : ilog2 (N / d) = 23 + (ilog2 (N / d) - 23) := by omega
      have hq1 : 2 ^ 23 ≤ N / d / 2 ^ (ilog2 (N / d) - 23) := by
        rw [Nat.le_div_iff_mul_le (Nat.two_pow_pos _), ← pow_add, ← hsplit]
        exact h1
      have hq2 : N / d / 2 ^ (ilog2 (N / d) - 23) < 2 ^ 24 := by
        rw [Nat.div_lt_iff_lt_mul (Nat.two_pow_pos _), ← pow_add]
        rw [show 24 + (ilog2 (N / d) - 23) = ilog2 (N / d) + 1 by omega]
        exact h2
      exact ⟨le_trans hq1 hlo, by omega⟩
    · left
      have he : ilog2 (N / d) - 23 = 0 := by omega
      rw [he] at hlo hhi ⊢
      simp only [pow_zero, Nat.div_one, Nat.mul_one] at hhi ⊢
      have : N / d < 2 ^ 23 :=
        lt_of_lt_of_le h2 (Nat.pow_le_pow_right (by decide) (by omega))
      exact ⟨trivial, by omega⟩

theorem toScaled_enc (e m : Nat) (he : e ≤ 252)
    (hm : (e = 0 ∧ m ≤ 2 ^ 23) ∨ (2 ^ 23 ≤ m ∧ m ≤ 2 ^ 24)) :
    toScaled ⟨e * 2 ^ 23 + m⟩ = m * 2 ^ e ∧ sign ⟨e * 2 ^ 23 + m⟩ = false
      ∧ magBits ⟨e * 2 ^ 23 + m⟩ = e * 2 ^ 23 + m := by
  have hs : sign ⟨e * 2 ^ 23 + m⟩ = false := by
    unfold sign
    simp only [beq_eq_false_iff_ne, ne_eq]
    rcases hm with ⟨_, h⟩ | ⟨_, h⟩ <;> omega
  have hmag : magBits ⟨e * 2 ^ 23 + m⟩ = e * 2 ^ 23 + m := by
    unfold magBits
    simp only
    rcases hm with ⟨_, h⟩ | ⟨_, h⟩ <;> omega
  refine ⟨?_, hs, hmag⟩
  unfold toScaled significand expField fracField
  simp only
  by_cases h1 : m < 2 ^ 23
  · have he0 : e = 0 := by rcases hm with ⟨h, _⟩ | ⟨h, _⟩ <;> omega
    subst he0
    have hx : (0 * 2 ^ 23 + m) / 2 ^ 23 % 256 = 0 := by omega
    have hf : (0 * 2 ^ 23 + m) % 2 ^ 23 = m := by omega
    rw [hx, hf, if_pos rfl]
  · by_cases h2 : m < 2 ^ 24
    · have hx : (e * 2 ^ 23 + m) / 2 ^ 23 % 256 = e + 1 := by omega
      have hf : (e * 2 ^ 23 + m) % 2 ^ 23 = m - 2 ^ 23 := by omega
      have hsig : 2 ^ 23 + (m - 2 ^ 23) = m := by omega
      rw [hx, hf, if_neg (by omega), Nat.add_sub_cancel, hsig]
    · have hm24 : m = 2 ^ 24 := by rcases hm with ⟨_, h⟩ | ⟨_, h⟩ <;> omega
      subst hm24
      have hx : (e * 2 ^ 23 + 2 ^ 24) / 2 ^ 23 % 256 = e + 2 := by omega
      have hf : (e * 2 ^ 23 + 2 ^ 24) % 2 ^ 23 = 0 := by omega
      rw [hx, hf, if_neg (by omega), show e + 2 - 1 = e + 1 by omega, pow_succ]
      ring

/-- The value a finite rounding decodes to: the rounded significand times the
unit in the last place. -/
theorem roundMag_decode (n d : Nat) (hd : 0 < d) (he : ilog2 (n * 2 ^ 149 / d) - 23 ≤ 252) :
    roundMag n d < 2139095040
      ∧ sign (pack false (roundMag n d)) = false
      ∧ magBits (pack false (roundMag n d)) = roundMag n d
      ∧ toScaled (pack false (roundMag n d))
          = roundNE (n * 2 ^ 149) (d * 2 ^ (ilog2 (n * 2 ^ 149 / d) - 23))
              * 2 ^ (ilog2 (n * 2 ^ 149 / d) - 23) := by
  have hm := roundNE_range (n * 2 ^ 149) d hd
  obtain ⟨h1, h2, h3⟩ := toScaled_enc _ _ he hm
  have hlt : (ilog2 (n * 2 ^ 149 / d) - 23) * 2 ^ 23
      + roundNE (n * 2 ^ 149) (d * 2 ^ (ilog2 (n * 2 ^ 149 / d) - 23)) < 2139095040 := by
    rcases hm with ⟨_, h⟩ | ⟨_, h⟩ <;> omega
  have hr : roundMag n d = (ilog2 (n * 2 ^ 149 / d) - 23) * 2 ^ 23
      + roundNE (n * 2 ^ 149) (d * 2 ^ (ilog2 (n * 2 ^ 149 / d) - 23)) := by
    unfold roundMag
    simp only
    rw [if_neg (by omega)]
  have hp : pack false (roundMag n d) = ⟨roundMag n d⟩ := by
    unfold pack
    simp
  rw [hp, hr]
  exact ⟨hlt, h2, h3, h1⟩

theorem roundNE_mul_right (a b c : Nat) (hc : 0 < c) : roundNE (a * c) (b * c) = roundNE a b := by
  unfold roundNE
  simp only [Nat.mul_div_mul_right a b hc, Nat.mul_mod_mul_right]
  have h1 : 2 * (a % b * c) < b * c ↔ 2 * (a % b) < b := by
    rw [← Nat.mul_assoc]
    exact Nat.mul_lt_mul_right hc
  have h2 : b * c < 2 * (a % b * c) ↔ b < 2 * (a % b) := by
    rw [← Nat.mul_assoc]
    exact Nat.mul_lt_mul_right hc
  simp only [h1, h2]

theorem finite_flags (x : Float32) (h : magBits x < 2139095040) :
    isNaN x = false ∧ isInf x = false := by
  unfold isNaN isInf
  constructor
  · simp only [decide_eq_false_iff_not]
    omega
  · simp only [beq_eq_false_iff_ne, ne_eq]
    omega

/-- Conversion of an integer below `2^24` is exact. -/
theorem ofNat_exact (r : Nat) (hr : r < 2 ^ 24) :
    sign (ofNat r) = false ∧ magBits (ofNat r) < 2139095040
      ∧ toScaled (ofNat r) = r * 2 ^ 149 := by
  have hL : ilog2 (r * 2 ^ 149 / 1) - 23 ≤ 149 := by
    rw [Nat.div_one]
    have hlt : r * 2 ^ 149 < 2 ^ 173 := by omega
    rcases ilog2_lt_of_lt_pow _ _ hlt with h | h
    · omega
    · rw [h, ilog2_zero]
      omega
  obtain ⟨h1, h2, h3, h4⟩ := roundMag_decode r 1 (by decide) (le_trans hL (by decide))
  refine ⟨h2, by unfold ofNat; omega, ?_⟩
  unfold ofNat
  rw [h4, Nat.one_mul]
  generalize ilog2 (r * 2 ^ 149 / 1) - 23 = e at hL ⊢
  have hsplit : (2 : Nat) ^ 149 = 2 ^ (149 - e) * 2 ^ e := by
    rw [← pow_add]
    congr 1
    omega
  rw [hsplit, ← Nat.mul_assoc, roundNE_mul_left _ _ (Nat.two_pow_pos e)]

set_option exponentiation.threshold 512 in
theorem mul_finite (a b : Float32) (hsa : sign a = false) (hsb : sign b = false)
    (ha : magBits a < 2139095040) (hb : magBits b < 2139095040) :
    mul a b = pack false (roundMag (toScaled a * toScaled b) (2 ^ 298)) := by
  obtain ⟨ha1, ha2⟩ := finite_flags a ha
  obtain ⟨hb1, hb2⟩ := finite_flags b hb
  unfold mul
  simp [ha1, ha2, hb1, hb2, hsa, hsb]

set_option exponentiation.threshold 512 in
/-- The product of a small integer and a finite non-negative constant, decoded:
the exact product `r * toScaled K` rounded at the unit in the last place. -/
theorem mul_ofNat_decode (K : Float32) (r : Nat) (hKs : sign K = false)
    (hKm : magBits K < 2139095040) (hr : r < 2 ^ 24)
    (he : ilog2 (r * toScaled K) - 23 ≤ 252) :
    sign (mul (ofNat r) K) = false ∧ magBits (mul (ofNat r) K) < 2139095040
      ∧ toScaled (mul (ofNat r) K)
          = roundNE (r * toScaled K) (2 ^ (ilog2 (r * toScaled K) - 23))
              * 2 ^ (ilog2 (r * toScaled K) - 23) := by
  obtain ⟨h1, h2, h3⟩ := ofNat_exact r hr
  rw [mul_finite _ _ h1 hKs h2 hKm, h3]
  have hN : r * 2 ^ 149 * toScaled K * 2 ^ 149 = r * toScaled K * 2 ^ 298 := by ring
  have hq : r * 2 ^ 149 * toScaled K * 2 ^ 149 / 2 ^ 298 = r * toScaled K := by
    rw [hN]
    exact Nat.mul_div_cancel _ (Nat.two_pow_pos 298)
  have he2 : ilog2 (r * 2 ^ 149 * toScaled K * 2 ^ 149 / 2 ^ 298) - 23 ≤ 252 := by
    rw [hq]
    exact he
  obtain ⟨g1, g2, g3, g4⟩ := roundMag_decode (r * 2 ^ 149 * toScaled K) (2 ^ 298)
    (Nat.two_pow_pos 298) he2
  refine ⟨g2, by omega, ?_⟩
  rw [g4, hq, hN, Nat.mul_comm (2 ^ 298) (2 ^ (ilog2 (r * toScaled K) - 23)),
    roundNE_mul_right _ _ _ (Nat.two_pow_pos 298)]

/-- Bounds on a calibrated sample: the rounded product stays below every
representable bound the exact product respects, and is within `2^-24` of the
exact product, relatively. -/
theorem mul_ofNat_bounds (K : Float32) (r B p : Nat) (hKs : sign K = false)
    (hKm : magBits K < 2139095040) (hr : r < 2 ^ 24)
    (hS1 : 2 ^ 23 ≤ toScaled K) (hp : p ≤ 252) (hx : r * toScaled K < 2 ^ (p + 24)) :
    sign (mul (ofNat r) K) = false ∧ magBits (mul (ofNat r) K) < 2139095040
      ∧ (r * toScaled K ≤ B * 2 ^ p → toScaled (mul (ofNat r) K) ≤ B * 2 ^ p)
      ∧ 2 ^ 24 * toScaled (mul (ofNat r) K) ≤ (2 ^ 24 + 1) * (r * toScaled K)
      ∧ (2 ^ 24 - 1) * (r * toScaled K) ≤ 2 ^ 24 * toScaled (mul (ofNat r) K) := by
  have he : ilog2 (r * toScaled K) - 23 ≤ p := by
    rcases ilog2_lt_of_lt_pow _ _ hx with h | h
    · omega
    · rw [h, ilog2_zero]
      omega
  obtain ⟨h1, h2, h3⟩ := mul_ofNat_decode K r hKs hKm hr (le_trans he hp)
  refine ⟨h1, h2, ?_, ?_⟩
  · intro hB
    rw [h3]
    have hsplit : (2 : Nat) ^ p = 2 ^ (p - (ilog2 (r * toScaled K) - 23))
        * 2 ^ (ilog2 (r * toScaled K) - 23) := by
      rw [← pow_add]
      congr 1
      omega
    have hle := roundNE_le_of_le_mul (r * toScaled K) (2 ^ (ilog2 (r * toScaled K) - 23))
      (B * 2 ^ (p - (ilog2 (r * toScaled K) - 23))) (Nat.two_pow_pos _)
      (by rw [Nat.mul_assoc, ← hsplit]; exact hB)
    calc roundNE (r * toScaled K) (2 ^ (ilog2 (r * toScaled K) - 23))
            * 2 ^ (ilog2 (r * toScaled K) - 23)
          ≤ B * 2 ^ (p - (ilog2 (r * toScaled K) - 23))
            * 2 ^ (ilog2 (r * toScaled K) - 23) := Nat.mul_le_mul_right _ hle
      _ = B * 2 ^ p := by rw [Nat.mul_assoc, ← hsplit]
  · rw [h3]
    obtain ⟨-, -, b1, b2⟩ := roundNE_bounds (r * toScaled K)
      (2 ^ (ilog2 (r * toScaled K) - 23)) (Nat.two_pow_pos _)
    rcases Nat.eq_zero_or_pos r with hr0 | hr0
    · subst hr0
      simp only [Nat.zero_mul, ilog2_zero, Nat.zero_sub, pow_zero, Nat.mul_one] at b1 b2 ⊢
      omega
    · have hx23 : 2 ^ 23 ≤ r * toScaled K :=
        le_trans hS1 (Nat.le_mul_of_pos_left _ hr0)
      have hL := le_ilog2_of_pow_le _ _ hx23
      have hpow : 2 ^ 23 * 2 ^ (ilog2 (r * toScaled K) - 23) ≤ r * toScaled K := by
        rw [← pow_add, show 23 + (ilog2 (r * toScaled K) - 23) = ilog2 (r * toScaled K) by omega]
        exact (ilog2_spec _ (lt_of_lt_of_le (Nat.two_pow_pos 23) hx23)).1
      generalize roundNE (r * toScaled K) (2 ^ (ilog2 (r * toScaled K) - 23))
          * 2 ^ (ilog2 (r * toScaled K) - 23) = t at b1 b2 ⊢
      generalize 2 ^ (ilog2 (r * toScaled K) - 23) = u at b1 b2 hpow
      generalize r * toScaled K = x at b1 b2 hpow ⊢
      omega

end F32

/-! Sensor calibration. -/

namespace Sensors

open F32

theorem PH_SLOPE_bits : PH_SLOPE = ⟨996150785⟩ := by decide!

theorem EC_FACTOR_bits : EC_FACTOR = ⟨983566849⟩ := by decide!

theorem WL_SCALE_bits : div (ofNat 100) (ofNat 4095) = ⟨1019743361⟩ := by decide!

theorem PH_SLOPE_decode : sign PH_SLOPE = false ∧ magBits PH_SLOPE < 2139095040
    ∧ toScaled PH_SLOPE = 14683649 * 2 ^ 117 := by
  rw [PH_SLOPE_bits]
  decide!

theorem EC_FACTOR_decode : sign EC_FACTOR = false ∧ magBits EC_FACTOR < 2139095040
    ∧ toScaled EC_FACTOR = 10488321 * 2 ^ 116 := by
  rw [EC_FACTOR_bits]
  decide!

theorem WL_SCALE_decode : sign (div (ofNat 100) (ofNat 4095)) = false
    ∧ magBits (div (ofNat 100) (ofNat 4095)) < 2139095040
    ∧ toScaled (div (ofNat 100) (ofNat 4095)) = 13110401 * 2 ^ 120 := by
  rw [WL_SCALE_bits]
  decide!

theorem toRat_of_sign_false (x : Float32) (h : sign x = false) :
    toRat x = (toScaled x : ℚ) / 2 ^ 149 := by
  unfold toRat
  rw [h]
  simp

theorem toRat_range (x : Float32) (c : Nat) (hs : sign x = false)
    (h : toScaled x ≤ c * 2 ^ 149) : 0 ≤ toRat x ∧ toRat x ≤ c := by
  rw [toRat_of_sign_false x hs]
  have hpos : (0 : ℚ) < 2 ^ 149 := pow_pos (by norm_num) 149
  constructor
  · exact div_nonneg (Nat.cast_nonneg _) (le_of_lt hpos)
  · rw [div_le_iff₀ hpos]
    exact_mod_cast h

theorem toRat_close (x : Float32) (r c : Nat) (hs : sign x = false)
    (h1 : 2 ^ 23 * 4095 * toScaled x ≤ (2 ^ 23 + 1) * (r * (c * 2 ^ 149)))
    (h2 : (2 ^ 23 - 1) * (r * (c * 2 ^ 149)) ≤ 2 ^ 23 * 4095 * toScaled x) :
    |toRat x - (r : ℚ) * (c / 4095)| ≤ (r : ℚ) * (c / 4095) / 2 ^ 23 := by
  rw [toRat_of_sign_false x hs]
  have hpos : (0 : ℚ) < 2 ^ 149 := pow_pos (by norm_num) 149
  have h1q : ((2 ^ 23 * 4095 * toScaled x : ℕ) : ℚ)
      ≤ (((2 ^ 23 + 1) * (r * (c * 2 ^ 149)) : ℕ) : ℚ) := Nat.cast_le.mpr h1
  have h2q : ((((2 ^ 23 - 1) * (r * (c * 2 ^ 149)) : ℕ)) : ℚ)
      ≤ ((2 ^ 23 * 4095 * toScaled x : ℕ) : ℚ) := Nat.cast_le.mpr h2
  push_cast at h1q h2q
  obtain ⟨T, hT⟩ : ∃ T : ℚ, (toScaled x : ℚ) = T * 2 ^ 149 :=
    ⟨(toScaled x : ℚ) / 2 ^ 149, by field_simp⟩
  rw [hT] at h1q h2q ⊢
  rw [mul_div_assoc, div_self (ne_of_gt hpos), mul_one, abs_le]
  norm_num at h1q h2q ⊢
  constructor <;> linarith

/-- A calibration channel `r ↦ r * K` on 12-bit samples, for a constant `K` that
is the binary32 value nearest `c / 4095`: the result is non-negative, at most
`c`, and within `2^-23` of `r * c / 4095`, relatively. -/
theorem channel_props (K : Float32) (c p r : Nat) (hr : r ≤ 4095)
    (hKs : sign K = false) (hKm : magBits K < 2139095040)
    (hS1 : 2 ^ 23 ≤ toScaled K) (hp : p ≤ 149) (hx : 4095 * toScaled K < 2 ^ (p + 24))
    (hB : 4094 * toScaled K ≤ c * 2 ^ 149)
    (hhi : 4095 * (2 ^ 24 + 1) * toScaled K ≤ 2 * (2 ^ 23 + 1) * (c * 2 ^ 149))
    (hlo : 2 * (2 ^ 23 - 1) * (c * 2 ^ 149) ≤ 4095 * (2 ^ 24 - 1) * toScaled K)
    (hc : c < 2 ^ 24) (hfull : mul (ofNat 4095) K = ofNat c) :
    sign (mul (ofNat r) K) = false
      ∧ toScaled (mul (ofNat r) K) ≤ c * 2 ^ 149
      ∧ 2 ^ 23 * 4095 * toScaled (mul (ofNat r) K) ≤ (2 ^ 23 + 1) * (r * (c * 2 ^ 149))
      ∧ (2 ^ 23 - 1) * (r * (c * 2 ^ 149)) ≤ 2 ^ 23 * 4095 * toScaled (mul (ofNat r) K) := by
  have hrx : r * toScaled K < 2 ^ (p + 24) :=
    lt_of_le_of_lt (Nat.mul_le_mul_right _ hr) hx
  have hsplit : c * 2 ^ 149 = c * 2 ^ (149 - p) * 2 ^ p := by
    rw [Nat.mul_assoc, ← pow_add, Nat.sub_add_cancel hp]
  obtain ⟨h1, -, h3, h4, h5⟩ := mul_ofNat_bounds K r (c * 2 ^ (149 - p)) p hKs hKm
    (lt_of_le_of_lt hr (by decide)) hS1 (le_trans hp (by decide)) hrx
  refine ⟨h1, ?_, ?_, ?_⟩
  · rcases Nat.lt_or_ge r 4095 with hlt | hge
    · have hle : r * toScaled K ≤ c * 2 ^ (149 - p) * 2 ^ p := by
        rw [← hsplit]
        exact le_trans (Nat.mul_le_mul_right _ (by omega : r ≤ 4094)) hB
      rw [hsplit]
      exact h3 hle
    · have hr4095 : r = 4095 := by omega
      rw [hr4095, hfull, (ofNat_exact c hc).2.2]
  · have m2 : 4095 * (2 ^ 24 + 1) * (r * toScaled K) ≤ 2 * (2 ^ 23 + 1) * (r * (c * 2 ^ 149)) := by
      calc 4095 * (2 ^ 24 + 1) * (r * toScaled K)
            = r * (4095 * (2 ^ 24 + 1) * toScaled K) := by ring
        _ ≤ r * (2 * (2 ^ 23 + 1) * (c * 2 ^ 149)) := Nat.mul_le_mul_left r hhi
        _ = 2 * (2 ^ 23 + 1) * (r * (c * 2 ^ 149)) := by ring
    generalize toScaled (mul (ofNat r) K) = t at h4 ⊢
    generalize r * toScaled K = X at h4 m2
    generalize r * (c * 2 ^ 149) = Y at m2 ⊢
    omega
  · have m2 : 2 * (2 ^ 23 - 1) * (r * (c * 2 ^ 149)) ≤ 4095 * (2 ^ 24 - 1) * (r * toScaled K) := by
      calc 2 * (2 ^ 23 - 1) * (r * (c * 2 ^ 149))
            = r * (2 * (2 ^ 23 - 1) * (c * 2 ^ 149)) := by ring
        _ ≤ r * (4095 * (2 ^ 24 - 1) * toScaled K) := Nat.mul_le_mul_left r hlo
        _ = 4095 * (2 ^ 24 - 1) * (r * toScaled K) := by ring
    generalize toScaled (mul (ofNat r) K) = t at h5 ⊢
    generalize r * toScaled K = X at h5 m2
    generalize r * (c * 2 ^ 149) = Y at m2 ⊢
    omega

theorem ph_props (r : Nat) (hr : r ≤ 4095) :
    sign (mul (ofNat r) PH_SLOPE) = false
      ∧ toScaled (mul (ofNat r) PH_SLOPE) ≤ 14 * 2 ^ 149
      ∧ 2 ^ 23 * 4095 * toScaled (mul (ofNat r) PH_SLOPE) ≤ (2 ^ 23 + 1) * (r * (14 * 2 ^ 149))
      ∧ (2 ^ 23 - 1) * (r * (14 * 2 ^ 149))
          ≤ 2 ^ 23 * 4095 * toScaled (mul (ofNat r) PH_SLOPE) := by
  obtain ⟨h1, h2, h3⟩ := PH_SLOPE_decode
  refine channel_props PH_SLOPE 14 129 r hr h1 h2 ?_ (by decide) ?_ ?_ ?_ ?_ (by decide) (by decide!)
  all_goals rw [h3]
  all_goals norm_num

theorem ec_props (r : Nat) (hr : r ≤ 4095) :
    sign (mul (ofNat r) EC_FACTOR) = false
      ∧ toScaled (mul (ofNat r) EC_FACTOR) ≤ 5 * 2 ^ 149
      ∧ 2 ^ 23 * 4095 * toScaled (mul (ofNat r) EC_FACTOR) ≤ (2 ^ 23 + 1) * (r * (5 * 2 ^ 149))
      ∧ (2 ^ 23 - 1) * (r * (5 * 2 ^ 149))
          ≤ 2 ^ 23 * 4095 * toScaled (mul (ofNat r) EC_FACTOR) := by
  obtain ⟨h1, h2, h3⟩ := EC_FACTOR_decode
  refine channel_props EC_FACTOR 5 128 r hr h1 h2 ?_ (by decide) ?_ ?_ ?_ ?_ (by decide) (by decide!)
  all_goals rw [h3]
  all_goals norm_num

theorem wl_props (r : Nat) (hr : r ≤ 4095) :
    sign (mul (ofNat r) (div (ofNat 100) (ofNat 4095))) = false
      ∧ toScaled (mul (ofNat r) (div (ofNat 100) (ofNat 4095))) ≤ 100 * 2 ^ 149
      ∧ 2 ^ 23 * 4095 * toScaled (mul (ofNat r) (div (ofNat 100) (ofNat 4095)))
          ≤ (2 ^ 23 + 1) * (r * (100 * 2 ^ 149))
      ∧ (2 ^ 23 - 1) * (r * (100 * 2 ^ 149))
          ≤ 2 ^ 23 * 4095 * toScaled (mul (ofNat r) (div (ofNat 100) (ofNat 4095))) := by
  obtain ⟨h1, h2, h3⟩ := WL_SCALE_decode
  refine channel_props _ 100 132 r hr h1 h2 ?_ (by decide) ?_ ?_ ?_ ?_ (by decide) (by decide!)
  all_goals rw [h3]
  all_goals norm_num

/-- C1: for raw samples in `[0, 4095]`, `readPH`, `readEC` and `readWaterLevel`
return exactly the binary32 product of the sample and the calibration constant
(`14.0f / 4095.0f`, `5.0f / 4095.0f`, `100.0f / 4095.0f`), with no clamping, offset
or other step; the value is `r * 14 / 4095` (resp. `5`, `100`) up to binary32
precision (relative error at most `2^-23`), and raw pH sample 2048 gives an
acidity within 0.01 of 7.003. -/
theorem calibration_linear (env : Env) (hph : env.adc PIN_PH ≤ 4095)
    (hec : env.adc PIN_EC ≤ 4095) (hwl : env.adc PIN_WATER_LEVEL ≤ 4095) :
    (readPH env = mul (ofNat (env.adc PIN_PH)) (div (ofNat 14) (ofNat 4095))
      ∧ |toRat (readPH env) - (env.adc PIN_PH : ℚ) * (14 / 4095)|
          ≤ (env.adc PIN_PH : ℚ) * (14 / 4095) / 2 ^ 23)
    ∧ (readEC env = mul (ofNat (env.adc PIN_EC)) (div (ofNat 5) (ofNat 4095))
      ∧ |toRat (readEC env) - (env.adc PIN_EC : ℚ) * (5 / 4095)|
          ≤ (env.adc PIN_EC : ℚ) * (5 / 4095) / 2 ^ 23)
    ∧ (readWaterLevel env
          = mul (ofNat (env.adc PIN_WATER_LEVEL)) (div (ofNat 100) (ofNat 4095))
      ∧ |toRat (readWaterLevel env) - (env.adc PIN_WATER_LEVEL : ℚ) * (100 / 4095)|
          ≤ (env.adc PIN_WATER_LEVEL : ℚ) * (100 / 4095) / 2 ^ 23)
    ∧ (env.adc PIN_PH = 2048 → |toRat (readPH env) - 7003 / 1000| ≤ 1 / 100) := by
  obtain ⟨p1, -, p3, p4⟩ := ph_props _ hph
  obtain ⟨e1, -, e3, e4⟩ := ec_props _ hec
  obtain ⟨w1, -, w3, w4⟩ := wl_props _ hwl
  refine ⟨⟨rfl, ?_⟩, ⟨rfl, ?_⟩, ⟨rfl, ?_⟩, ?_⟩
  · have := toRat_close _ _ 14 p1 p3 p4
    exact_mod_cast this
  · have := toRat_close _ _ 5 e1 e3 e4
    exact_mod_cast this
  · have := toRat_close _ _ 100 w1 w3 w4
    exact_mod_cast this
  · intro h
    have hv : mul (ofNat 2048) PH_SLOPE = ⟨1088425473⟩ := by decide!
    have hd : sign (⟨1088425473⟩ : Float32) = false
        ∧ toScaled (⟨1088425473⟩ : Float32) = 14683649 * 2 ^ 128 := by decide!
    unfold readPH
    rw [h, hv, toRat_of_sign_false _ hd.1, hd.2]
    rw [abs_le]
    constructor <;> norm_num

theorem calibration_linear_witness :
    (readPH ⟨⟨0⟩, fun _ => 2048, 0⟩
        = mul (ofNat 2048) (div (ofNat 14) (ofNat 4095))
      ∧ |toRat (readPH ⟨⟨0⟩, fun _ => 2048, 0⟩) - ((2048 : Nat) : ℚ) * (14 / 4095)|
          ≤ ((2048 : Nat) : ℚ) * (14 / 4095) / 2 ^ 23)
    ∧ (readEC ⟨⟨0⟩, fun _ => 2048, 0⟩
        = mul (ofNat 2048) (div (ofNat 5) (ofNat 4095))
      ∧ |toRat (readEC ⟨⟨0⟩, fun _ => 2048, 0⟩) - ((2048 : Nat) : ℚ) * (5 / 4095)|
          ≤ ((2048 : Nat) : ℚ) * (5 / 4095) / 2 ^ 23)
    ∧ (readWaterLevel ⟨⟨0⟩, fun _ => 2048, 0⟩
        = mul (ofNat 2048) (div (ofNat 100) (ofNat 4095))
      ∧ |toRat (readWaterLevel ⟨⟨0⟩, fun _ => 2048, 0⟩) - ((2048 : Nat) : ℚ) * (100 / 4095)|
          ≤ ((2048 : Nat) : ℚ) * (100 / 4095) / 2 ^ 23)
    ∧ ((2048 : Nat) = 2048 → |toRat (readPH ⟨⟨0⟩, fun _ => 2048, 0⟩) - 7003 / 1000| ≤ 1 / 100) :=
  calibration_linear ⟨⟨0⟩, fun _ => 2048, 0⟩ (by decide) (by decide) (by decide)

/-- C8: for raw samples in `[0, 4095]`, `readPH` returns a value in `[0, 14]`,
`readEC` a value in `[0, 5]` and `readWaterLevel` a value in `[0, 100]`; the
full-scale sample 4095 maps to exactly 14, 5 and 100, and the sample 0 to 0. -/
theorem calibration_range (env : Env) (hph : env.adc PIN_PH ≤ 4095)
    (hec : env.adc PIN_EC ≤ 4095) (hwl : env.adc PIN_WATER_LEVEL ≤ 4095) :
    (0 ≤ toRat (readPH env) ∧ toRat (readPH env) ≤ 14)
    ∧ (0 ≤ toRat (readEC env) ∧ toRat (readEC env) ≤ 5)
    ∧ (0 ≤ toRat (readWaterLevel env) ∧ toRat (readWaterLevel env) ≤ 100)
    ∧ (env.adc PIN_PH = 4095 → readPH env = ofNat 14 ∧ toRat (readPH env) = 14)
    ∧ (env.adc PIN_EC = 4095 → readEC env = ofNat 5 ∧ toRat (readEC env) = 5)
    ∧ (env.adc PIN_WATER_LEVEL = 4095 →
        readWaterLevel env = ofNat 100 ∧ toRat (readWaterLevel env) = 100)
    ∧ (env.adc PIN_PH = 0 → readPH env = ofNat 0 ∧ toRat (readPH env) = 0)
    ∧ (env.adc PIN_EC = 0 → readEC env = ofNat 0 ∧ toRat (readEC env) = 0)
    ∧ (env.adc PIN_WATER_LEVEL = 0 →
        readWaterLevel env = ofNat 0 ∧ toRat (readWaterLevel env) = 0) := by
  obtain ⟨p1, p2, -, -⟩ := ph_props _ hph
  obtain ⟨e1, e2, -, -⟩ := ec_props _ hec
  obtain ⟨w1, w2, -, -⟩ := wl_props _ hwl
  have hval : ∀ c : Nat, c < 2 ^ 24 → toRat (ofNat c) = c := by
    intro c hc
    obtain ⟨a1, -, a3⟩ := ofNat_exact c hc
    rw [toRat_of_sign_false _ a1, a3]
    rw [Nat.cast_mul, Nat.cast_pow, Nat.cast_ofNat]
    exact mul_div_cancel_right₀ _ (pow_ne_zero 149 (by norm_num))
  have f14 : mul (ofNat 4095) PH_SLOPE = ofNat 14 := by decide!
  have f5 : mul (ofNat 4095) EC_FACTOR = ofNat 5 := by decide!
  have f100 : mul (ofNat 4095) (div (ofNat 100) (ofNat 4095)) = ofNat 100 := by decide!
  have z14 : mul (ofNat 0) PH_SLOPE = ofNat 0 := by decide!
  have z5 : mul (ofNat 0) EC_FACTOR = ofNat 0 := by decide!
  have z100 : mul (ofNat 0) (div (ofNat 100) (ofNat 4095)) = ofNat 0 := by decide!
  refine ⟨?_, ?_, ?_, ?_, ?_, ?_, ?_, ?_, ?_⟩
  · have := toRat_range _ 14 p1 p2
    exact_mod_cast this
  · have := toRat_range _ 5 e1 e2
    exact_mod_cast this
  · have := toRat_range _ 100 w1 w2
    exact_mod_cast this
  · intro h
    have hr : readPH env = ofNat 14 := by unfold readPH; rw [h, f14]
    exact ⟨hr, by rw [hr, hval 14 (by decide)]; norm_num⟩
  · intro h
    have hr : readEC env = ofNat 5 := by unfold readEC; rw [h, f5]
    exact ⟨hr, by rw [hr, hval 5 (by decide)]; norm_num⟩
  · intro h
    have hr : readWaterLevel env = ofNat 100 := by unfold readWaterLevel; rw [h, f100]
    exact ⟨hr, by rw [hr, hval 100 (by decide)]; norm_num⟩
  · intro h
    have hr : readPH env = ofNat 0 := by unfold readPH; rw [h, z14]
    exact ⟨hr, by rw [hr, hval 0 (by decide)]; norm_num⟩
  · intro h
    have hr : readEC env = ofNat 0 := by unfold readEC; rw [h, z5]
    exact ⟨hr, by rw [hr, hval 0 (by decide)]; norm_num⟩
  · intro h
    have hr : readWaterLevel env = ofNat 0 := by unfold readWaterLevel; rw [h, z100]
    exact ⟨hr, by rw [hr, hval 0 (by decide)]; norm_num⟩

theorem calibration_range_witness :
    (0 ≤ toRat (readPH ⟨⟨0⟩, fun _ => 4095, 0⟩) ∧ toRat (readPH ⟨⟨0⟩, fun _ => 4095, 0⟩) ≤ 14)
    ∧ (0 ≤ toRat (readEC ⟨⟨0⟩, fun _ => 4095, 0⟩) ∧ toRat (readEC ⟨⟨0⟩, fun _ => 4095, 0⟩) ≤ 5)
    ∧ (0 ≤ toRat (readWaterLevel ⟨⟨0⟩, fun _ => 4095, 0⟩)
        ∧ toRat (readWaterLevel ⟨⟨0⟩, fun _ => 4095, 0⟩) ≤ 100)
    ∧ ((4095 : Nat) = 4095 → readPH ⟨⟨0⟩, fun _ => 4095, 0⟩ = ofNat 14
        ∧ toRat (readPH ⟨⟨0⟩, fun _ => 4095, 0⟩) = 14)
    ∧ ((4095 : Nat) = 4095 → readEC ⟨⟨0⟩, fun _ => 4095, 0⟩ = ofNat 5
        ∧ toRat (readEC ⟨⟨0⟩, fun _ => 4095, 0⟩) = 5)
    ∧ ((4095 : Nat) = 4095 → readWaterLevel ⟨⟨0⟩, fun _ => 4095, 0⟩ = ofNat 100
        ∧ toRat (readWaterLevel ⟨⟨0⟩, fun _ => 4095, 0⟩) = 100)
    ∧ ((4095 : Nat) = 0 → readPH ⟨⟨0⟩, fun _ => 4095, 0⟩ = ofNat 0
        ∧ toRat (readPH ⟨⟨0⟩, fun _ => 4095, 0⟩) = 0)
    ∧ ((4095 : Nat) = 0 → readEC ⟨⟨0⟩, fun _ => 4095, 0⟩ = ofNat 0
        ∧ toRat (readEC ⟨⟨0⟩, fun _ => 4095, 0⟩) = 0)
    ∧ ((4095 : Nat) = 0 → readWaterLevel ⟨⟨0⟩, fun _ => 4095, 0⟩ = ofNat 0
        ∧ toRat (readWaterLevel ⟨⟨0⟩, fun _ => 4095, 0⟩) = 0) :=
  calibration_range ⟨⟨0⟩, fun _ => 4095, 0⟩ (by decide) (by decide) (by decide)

/-- C5 (amended): over a sequence of `readAll` calls made against a
non-decreasing clock, the `ts` of each returned `Data` is at least the `ts` of
the preceding one whenever the uptime did not pass a multiple of `2^32` ms
between the two calls. -/
theorem readAll_ts_monotone (envs : List Env)
    (h : List.Chain' (fun a b : Env => a.clock ≤ b.clock ∧ a.clock / 2 ^ 32 = b.clock / 2 ^ 32)
      envs) :
    List.Chain' (fun a b : Data => a.ts ≤ b.ts) (envs.map readAll) := by
  rw [List.chain'_map]
  refine List.Chain'.imp ?_ h
  intro a b hab
  show millis a.clock ≤ millis b.clock
  unfold millis
  omega

theorem readAll_ts_monotone_witness :
    List.Chain' (fun a b : Data => a.ts ≤ b.ts)
      (([⟨⟨0⟩, fun _ => 0, 4294967297⟩, ⟨⟨0⟩, fun _ => 0, 4294967300⟩] : List Env).map readAll) :=
  readAll_ts_monotone [⟨⟨0⟩, fun _ => 0, 4294967297⟩, ⟨⟨0⟩, fun _ => 0, 4294967300⟩]
    (by simp)

/-- C5 (counterexample): two `readAll` calls at uptimes 4294967295 and
4294967296, a non-decreasing clock, return `ts = 4294967295` and then `ts = 0`. -/
theorem readAll_ts_wraps :
    (4294967295 : Nat) ≤ 4294967296
      ∧ (readAll ⟨⟨0⟩, fun _ => 0, 4294967295⟩).ts = 4294967295
      ∧ (readAll ⟨⟨0⟩, fun _ => 0, 4294967296⟩).ts = 0
      ∧ ¬ List.Chain' (fun a b : Data => a.ts ≤ b.ts)
          (([⟨⟨0⟩, fun _ => 0, 4294967295⟩, ⟨⟨0⟩, fun _ => 0, 4294967296⟩] : List Env).map
            readAll) := by
  refine ⟨by decide, rfl, rfl, ?_⟩
  simp [readAll, millis]

/-- C6: `readAll` returns the temperature driver's value unchanged, whatever it
is (the probe-absent sentinel included), and the `ph`, `ec` and `waterLevel`
fields are the linear transforms of the samples on their own pins, the same
for any two temperature values. -/
theorem readAll_channel_independence (t t' : Float32) (adc : Nat → Nat) (clock : Nat) :
    (readAll ⟨t, adc, clock⟩).temperature = t
      ∧ (readAll ⟨t, adc, clock⟩).ph = mul (ofNat (adc PIN_PH)) PH_SLOPE
      ∧ (readAll ⟨t, adc, clock⟩).ec = mul (ofNat (adc PIN_EC)) EC_FACTOR
      ∧ (readAll ⟨t, adc, clock⟩).waterLevel
          = mul (ofNat (adc PIN_WATER_LEVEL)) (div (ofNat 100) (ofNat 4095))
      ∧ (readAll ⟨t, adc, clock⟩).ph = (readAll ⟨t', adc, clock⟩).ph
      ∧ (readAll ⟨t, adc, clock⟩).ec = (readAll ⟨t', adc, clock⟩).ec
      ∧ (readAll ⟨t, adc, clock⟩).waterLevel = (readAll ⟨t', adc, clock⟩).waterLevel
      ∧ (readAll ⟨t, adc, clock⟩).ts = (readAll ⟨t', adc, clock⟩).ts := by
  simp only [readAll, readTemperatureC, readPH, readEC, readWaterLevel, and_self]

end Sensors

/-! Wi-Fi supervision. -/

namespace WifiManager

theorem subU32_millis (c e : Nat) : subU32 (millis (c + e)) (millis c) = e % 2 ^ 32 := by
  unfold subU32 millis
  omega

theorem timedOut_at (c k T : Nat) :
    timedOut (millis (c + 250 * k)) (millis c) T = decide (T ≤ (250 * k) % 2 ^ 32) := by
  unfold timedOut
  rw [subU32_millis]

theorem loop_skip (status : Nat → Bool) (c T : Nat) :
    ∀ (j fuel k : Nat),
      (∀ i, i < j → status (k + i) = false ∧ (250 * (k + i)) % 2 ^ 32 < T) →
      ensureConnectedLoop status (millis c) T (fuel + j) (c + 250 * k) k k
        = ensureConnectedLoop status (millis c) T fuel (c + 250 * (k + j)) (k + j) (k + j) := by
  intro j
  induction j with
  | zero => intro fuel k _; rfl
  | succ j ih =>
    intro fuel k h
    have h0 := h 0 (Nat.succ_pos j)
    have hs : status k = false := by simpa using h0.1
    have ht : ¬ (T ≤ (250 * k) % 2 ^ 32) := by
      have := h0.2
      simp only [Nat.add_zero] at this
      omega
    have hstep : ensureConnectedLoop status (millis c) T (fuel + j + 1) (c + 250 * k) k k
        = ensureConnectedLoop status (millis c) T (fuel + j) (c + 250 * (k + 1)) (k + 1) (k + 1) := by
      rw [ensureConnectedLoop, timedOut_at,
        show c + 250 * (k + 1) = c + 250 * k + 250 by omega]
      simp only [hs, decide_eq_true_eq, ht, if_false, Bool.false_eq_true]
    have hrest := ih fuel (k + 1) (fun i hi => by
      have := h (i + 1) (Nat.succ_lt_succ hi)
      rw [show k + 1 + i = k + (i + 1) by omega]
      exact this)
    rw [show fuel + (j + 1) = fuel + j + 1 by omega, hstep, hrest]
    rw [show k + 1 + j = k + (j + 1) by omega]

theorem ensureConnected_run (status : Nat → Bool) (c T k fuel : Nat) (hpre : Pending status T k) :
    ensureConnected (fuel + k) status c T
      = ensureConnectedLoop status (millis c) T fuel (c + 250 * k) k k := by
  have h := loop_skip status c T k fuel 0 (fun i hi => by
    rw [Nat.zero_add]; exact hpre i hi)
  simpa [ensureConnected] using h

theorem ensureConnected_none (status : Nat → Bool) (c T fuel : Nat) (hpre : Pending status T fuel) :
    ensureConnected fuel status c T = none := by
  have h := ensureConnected_run status c T fuel 0 hpre
  rw [Nat.zero_add] at h
  rw [h]; rfl

theorem ensureConnected_stop (status : Nat → Bool) (c T k fuel : Nat) (hpre : Pending status T k)
    (hstop : status k = true ∨ T ≤ (250 * k) % 2 ^ 32) (hfuel : k < fuel) :
    ensureConnected fuel status c T = some ⟨status k, c + 250 * k, k + 1, k⟩ := by
  obtain ⟨f, rfl⟩ : ∃ f, fuel = f + 1 + k := ⟨fuel - k - 1, by omega⟩
  rw [ensureConnected_run status c T k (f + 1) hpre, ensureConnectedLoop, timedOut_at]
  cases hs : status k with
  | true => simp only [if_true]
  | false =>
    have ht : T ≤ (250 * k) % 2 ^ 32 := by
      rcases hstop with h | h
      · rw [hs] at h; cases h
      · exact h
    simp only [Bool.false_eq_true, if_false, decide_eq_true_eq, ht, if_true]

theorem ensureConnected_some (status : Nat → Bool) (c T fuel : Nat) (out : Outcome)
    (h : ensureConnected fuel status c T = some out) :
    ∃ k, k < fuel ∧ Pending status T k ∧ (status k = true ∨ T ≤ (250 * k) % 2 ^ 32)
      ∧ out = ⟨status k, c + 250 * k, k + 1, k⟩ := by
  by_cases hex : ∃ k, k < fuel ∧ (status k = true ∨ T ≤ (250 * k) % 2 ^ 32)
  · classical
    have hk := Nat.find_spec hex
    have hmin : Pending status T (Nat.find hex) := by
      intro j hj
      have hnot := Nat.find_min hex hj
      have hjf : j < fuel := lt_trans hj hk.1
      constructor
      · cases hs : status j with
        | false => rfl
        | true => exact absurd ⟨hjf, Or.inl hs⟩ hnot
      · by_contra hlt
        exact hnot ⟨hjf, Or.inr (by omega)⟩
    refine ⟨Nat.find hex, hk.1, hmin, hk.2, ?_⟩
    rw [ensureConnected_stop status c T _ fuel hmin hk.2 hk.1] at h
    exact (Option.some.inj h).symm
  · have hpre : Pending status T fuel := by
      intro j hj
      constructor
      · cases hs : status j with
        | false => rfl
        | true => exact absurd ⟨j, hj, Or.inl hs⟩ hex
      · by_contra hlt
        exact hex ⟨j, hj, Or.inr (by omega)⟩
    rw [ensureConnected_none status c T fuel hpre] at h
    cases h

/-- C2 (amended): for every timeout `T ≤ 4294967250` (the largest multiple of
250 an `unsigned long` holds) and a radio that never reports Connected,
`ensureConnected(T)` returns false after `⌈T / 250⌉` delays, and the time elapsed
between entry and return is at least `T` and at most `T + 250` ms. -/
theorem ensureConnected_timeout_bound (status : Nat → Bool) (c T fuel : Nat)
    (hT : T ≤ 4294967250) (hnever : ∀ i, status i = false) (hfuel : (T + 249) / 250 < fuel) :
    ∃ out, ensureConnected fuel status c T = some out ∧ out.ret = false
      ∧ out.delays = (T + 249) / 250
      ∧ T ≤ out.clock - c ∧ out.clock - c ≤ T + 250 := by
  have hpre : Pending status T ((T + 249) / 250) := by
    intro j hj
    exact ⟨hnever j, by omega⟩
  have hstop : status ((T + 249) / 250) = true ∨ T ≤ (250 * ((T + 249) / 250)) % 2 ^ 32 :=
    Or.inr (by omega)
  refine ⟨_, ensureConnected_stop status c T _ fuel hpre hstop hfuel, hnever _, rfl, ?_, ?_⟩
  · show T ≤ c + 250 * ((T + 249) / 250) - c
    omega
  · show c + 250 * ((T + 249) / 250) - c ≤ T + 250
    omega

theorem ensureConnected_timeout_bound_witness :
    ∃ out, ensureConnected 62 (fun _ => false) 1000 15000 = some out ∧ out.ret = false
      ∧ out.delays = (15000 + 249) / 250
      ∧ 15000 ≤ out.clock - 1000 ∧ out.clock - 1000 ≤ 15000 + 250 :=
  ensureConnected_timeout_bound (fun _ => false) 1000 15000 62 (by decide) (fun _ => rfl)
    (by decide)

/-- C2 (counterexample): with timeout 4294967251 and a radio that never
connects, no return of `ensureConnected` happens within `T + 250` ms of entry:
the wrapped elapsed time passes from 4294967250 to 204 and stays below `T`. -/
theorem ensureConnected_timeout_bound_fails :
    ¬ ∃ fuel out, ensureConnected fuel (fun _ => false) 0 4294967251 = some out
      ∧ out.ret = false ∧ 4294967251 ≤ out.clock - 0
      ∧ out.clock - 0 ≤ 4294967251 + 250 := by
  rintro ⟨fuel, out, h, -, -, hle⟩
  obtain ⟨k, -, -, hstop, rfl⟩ := ensureConnected_some _ _ _ _ _ h
  rcases hstop with hs | ht
  · cases hs
  · simp only [Nat.sub_zero, Nat.zero_add] at hle
    rcases Nat.lt_or_ge (250 * k) (2 ^ 32) with h1 | h1
    · rw [Nat.mod_eq_of_lt h1] at ht
      omega
    · have hk : k = 17179870 := by omega
      subst hk
      omega

/-- C3 (amended): `ensureConnected(T)` returns true exactly when some poll
reports Connected while every earlier poll reported not connected at a wrapped
elapsed time below `T`; it returns false exactly when some poll reports not
connected at a wrapped elapsed time of at least `T`, every earlier poll having
reported not connected below `T`. The status is polled before the elapsed time
is tested, so the poll that reports Connected may itself be taken at or after
`T`; for `T ≤ 4294967250` every return, true or false, happens less than
`T + 250` ms after entry. -/
theorem ensureConnected_result_iff (status : Nat → Bool) (c T : Nat) :
    ((∃ fuel out, ensureConnected fuel status c T = some out ∧ out.ret = true)
        ↔ ∃ k, status k = true ∧ Pending status T k)
    ∧ ((∃ fuel out, ensureConnected fuel status c T = some out ∧ out.ret = false)
        ↔ ∃ k, status k = false ∧ T ≤ (250 * k) % 2 ^ 32 ∧ Pending status T k)
    ∧ (T ≤ 4294967250 → ∀ fuel out, ensureConnected fuel status c T = some out →
        out.clock - c < T + 250) := by
  refine ⟨⟨?_, ?_⟩, ⟨?_, ?_⟩, ?_⟩
  · rintro ⟨fuel, out, h, hret⟩
    obtain ⟨k, -, hpre, -, rfl⟩ := ensureConnected_some _ _ _ _ _ h
    exact ⟨k, hret, hpre⟩
  · rintro ⟨k, hs, hpre⟩
    exact ⟨k + 1, _, ensureConnected_stop status c T k (k + 1) hpre (Or.inl hs) (Nat.lt_succ_self k),
      hs⟩
  · rintro ⟨fuel, out, h, hret⟩
    obtain ⟨k, -, hpre, hstop, rfl⟩ := ensureConnected_some _ _ _ _ _ h
    have hs : status k = false := hret
    rcases hstop with h1 | h1
    · rw [hs] at h1; cases h1
    · exact ⟨k, hs, h1, hpre⟩
  · rintro ⟨k, hs, ht, hpre⟩
    exact ⟨k + 1, _, ensureConnected_stop status c T k (k + 1) hpre (Or.inr ht) (Nat.lt_succ_self k),
      hs⟩
  · intro hT fuel out h
    obtain ⟨k, -, hpre, -, rfl⟩ := ensureConnected_some _ _ _ _ _ h
    show c + 250 * k - c < T + 250
    have hk : k ≤ (T + 249) / 250 := by
      by_contra hgt
      have hj := (hpre ((T + 249) / 250) (by omega)).2
      omega
    omega

theorem ensureConnected_result_iff_witness :
    (100 : Nat) ≤ 4294967250
      ∧ ((∃ fuel out, ensureConnected fuel (fun i => decide (i = 1)) 0 100 = some out
            ∧ out.ret = true)
          ↔ ∃ k, (fun i => decide (i = 1)) k = true ∧ Pending (fun i => decide (i = 1)) 100 k)
      ∧ ∀ fuel out, ensureConnected fuel (fun i => decide (i = 1)) 0 100 = some out →
          out.clock - 0 < 100 + 250 :=
  ⟨by decide, (ensureConnected_result_iff (fun i => decide (i = 1)) 0 100).1,
    (ensureConnected_result_iff (fun i => decide (i = 1)) 0 100).2.2 (by decide)⟩

/-- C3 (counterexample): with timeout 100, a first poll that reports not
connected and a second poll (taken at elapsed time 250) that reports Connected,
`ensureConnected` returns true although no poll reported Connected at an elapsed
time below 100. -/
theorem ensureConnected_true_after_timeout :
    ensureConnected 2 (fun i => decide (i = 1)) 0 100 = some ⟨true, 250, 2, 1⟩
      ∧ ¬ ∃ k, (fun i => decide (i = 1)) k = true ∧ 250 * k < 100 := by
  refine ⟨by decide, ?_⟩
  rintro ⟨k, hk, hlt⟩
  simp only [decide_eq_true_eq] at hk
  omega

/-- C4: if the first poll reports Connected, `ensureConnected` returns true
after exactly one call of `wifiMulti.run()`, no `delay`, and with the clock
where it was at entry, whatever the timeout (0 included). -/
theorem ensureConnected_already_connected (status : Nat → Bool) (c T fuel : Nat)
    (h : status 0 = true) :
    ensureConnected (fuel + 1) status c T = some ⟨true, c, 1, 0⟩ := by
  simp [ensureConnected, ensureConnectedLoop, h]

theorem ensureConnected_already_connected_witness :
    ensureConnected (0 + 1) (fun _ => true) 12345 0 = some ⟨true, 12345, 1, 0⟩ :=
  ensureConnected_already_connected (fun _ => true) 12345 0 0 rfl

/-- C7 (amended): for every timeout `T ≤ 4294967250` and a radio that never
reports Connected, `ensureConnected(T)` returns false and the time elapsed at
its return is `250 * ⌈T / 250⌉`, the least multiple of 250 that is at least `T`;
it is exactly `T` if and only if `T` is a multiple of 250. -/
theorem ensureConnected_elapsed_exact (status : Nat → Bool) (c T fuel : Nat)
    (hT : T ≤ 4294967250) (hnever : ∀ i, status i = false) (hfuel : (T + 249) / 250 < fuel) :
    ∃ out, ensureConnected fuel status c T = some out ∧ out.ret = false
      ∧ out.clock - c = 250 * ((T + 249) / 250)
      ∧ (∀ m, T ≤ 250 * m → out.clock - c ≤ 250 * m)
      ∧ (out.clock - c = T ↔ T % 250 = 0) := by
  have hpre : Pending status T ((T + 249) / 250) := by
    intro j hj
    exact ⟨hnever j, by omega⟩
  have hstop : status ((T + 249) / 250) = true ∨ T ≤ (250 * ((T + 249) / 250)) % 2 ^ 32 :=
    Or.inr (by omega)
  have hel : c + 250 * ((T + 249) / 250) - c = 250 * ((T + 249) / 250) := by omega
  refine ⟨_, ensureConnected_stop status c T _ fuel hpre hstop hfuel, hnever _, hel, ?_, ?_⟩
  · intro m hm
    show c + 250 * ((T + 249) / 250) - c ≤ 250 * m
    omega
  · show c + 250 * ((T + 249) / 250) - c = T ↔ T % 250 = 0
    omega

theorem ensureConnected_elapsed_exact_witness :
    ∃ out, ensureConnected 5 (fun _ => false) 7 1000 = some out ∧ out.ret = false
      ∧ out.clock - 7 = 250 * ((1000 + 249) / 250)
      ∧ (∀ m, 1000 ≤ 250 * m → out.clock - 7 ≤ 250 * m)
      ∧ (out.clock - 7 = 1000 ↔ 1000 % 250 = 0) :=
  ensureConnected_elapsed_exact (fun _ => false) 7 1000 5 (by decide) (fun _ => rfl) (by decide)

/-- C7 (counterexample): with timeout 100 and a radio that never connects,
`ensureConnected` returns false at elapsed time 250, and no run returns at
elapsed time 100. -/
theorem ensureConnected_elapsed_not_exact :
    ensureConnected 2 (fun _ => false) 0 100 = some ⟨false, 250, 2, 1⟩
      ∧ ¬ ∃ fuel out, ensureConnected fuel (fun _ => false) 0 100 = some out
          ∧ out.clock - 0 = 100 := by
  refine ⟨by decide, ?_⟩
  rintro ⟨fuel, out, h, hel⟩
  obtain ⟨k, -, -, -, rfl⟩ := ensureConnected_some _ _ _ _ _ h
  simp only [Nat.sub_zero, Nat.zero_add] at hel
  omega

/-- C9 (amended): for every timeout `T ≤ 4294967294`, every sequence of radio
status results and every entry time, `ensureConnected` returns, after at most
1494648620 polls: the wrapped elapsed time at poll 1494648619 is 4294967294. -/
theorem ensureConnected_terminates (status : Nat → Bool) (c T fuel : Nat)
    (hT : T ≤ 4294967294) (hfuel : 1494648620 ≤ fuel) :
    ∃ out, ensureConnected fuel status c T = some out ∧ out.polls ≤ 1494648620 := by
  classical
  have hex : ∃ k, status k = true ∨ T ≤ (250 * k) % 2 ^ 32 :=
    ⟨1494648619, Or.inr (by omega)⟩
  have hle : Nat.find hex ≤ 1494648619 := Nat.find_min' hex (Or.inr (by omega))
  have hpre : Pending status T (Nat.find hex) := by
    intro j hj
    have hnot := Nat.find_min hex hj
    constructor
    · cases hs : status j with
      | false => rfl
      | true => exact absurd (Or.inl hs) hnot
    · by_contra hlt
      exact hnot (Or.inr (by omega))
  refine ⟨_, ensureConnected_stop status c T _ fuel hpre (Nat.find_spec hex) (by omega), ?_⟩
  show Nat.find hex + 1 ≤ 1494648620
  omega

theorem ensureConnected_terminates_witness :
    ∃ out, ensureConnected 1494648620 (fun _ => false) 0 4294967294 = some out
      ∧ out.polls ≤ 1494648620 :=
  ensureConnected_terminates (fun _ => false) 0 4294967294 1494648620 (by decide) (by decide)

/-- C9 (counterexample): with timeout 4294967295 and a radio that never
connects, `ensureConnected` never returns: the wrapped elapsed time is always
even, hence never reaches 4294967295. -/
theorem ensureConnected_never_returns :
    ¬ ∃ fuel out, ensureConnected fuel (fun _ => false) 0 4294967295 = some out := by
  rintro ⟨fuel, out, h⟩
  obtain ⟨k, -, -, hstop, -⟩ := ensureConnected_some _ _ _ _ _ h
  rcases hstop with hs | ht
  · cases hs
  · omega

/-- C10: the unsigned difference `millis() - start` is the true elapsed time
whenever that is below `2^32`, wherever the counter wrapped in between, so the
timeout test agrees with the test on an unbounded clock. -/
theorem timedOut_wrap_safe (s e T : Nat) (hs : s < 2 ^ 32) (he : e < 2 ^ 32) :
    subU32 ((s + e) % 2 ^ 32) s = e
      ∧ timedOut ((s + e) % 2 ^ 32) s T = decide (T ≤ e) := by
  have h : subU32 ((s + e) % 2 ^ 32) s = e := by
    unfold subU32
    omega
  exact ⟨h, by unfold timedOut; rw [h]⟩

theorem timedOut_wrap_safe_witness :
    subU32 ((4294967000 + 500) % 2 ^ 32) 4294967000 = 500
      ∧ timedOut ((4294967000 + 500) % 2 ^ 32) 4294967000 400 = decide (400 ≤ 500) :=
  timedOut_wrap_safe 4294967000 500 400 (by decide) (by decide)

end WifiManager
